import Mathlib

/-!
Shallow embedding of `src/packager/react-packager/src/AssetServer/index.js`
(the asset resolution engine of the packager): density-aware asset lookup
across project roots, asset-map construction, variant selection, and
metadata fingerprinting.

Conventions of the embedding:
* JS numbers that hold densities/resolutions are modelled as `ℚ`
  (filenames carry decimal density suffixes such as `@1.5x`).
* File contents, paths and names are Lean `String`s; byte streams fed to
  the MD5 digest are modelled as `List Char`.
* Asynchronous I/O collaborators (`fs.lstat`, `fs.readdir`, `fs.readFile`)
  are modelled as explicit functions returning `Except`; the completion
  order of the concurrent probes issued by `findRoot` is an explicit
  argument (a list of promise indices in completion order).
* The MD5 digest is an external crypto collaborator; it is passed as an
  explicit function argument `md5 : List Char → String`, assumed injective
  where a theorem needs collision-freeness.
-/

namespace Packager

/-! ### Character and string helpers -/

/-- Split a character list at the *last* occurrence of `c`: returns
`some (before, after)` with `l = before ++ c :: after`, or `none` when `c`
does not occur. -/
def splitLast (c : Char) (l : List Char) : Option (List Char × List Char) :=
  match l.reverse.span (fun x => x ≠ c) with
  | (_, []) => none
  | (afterRev, _ :: beforeRev) => some (beforeRev.reverse, afterRev.reverse)

/-- The part of a path after its last `/` (the whole string when there is
no slash). -/
def afterLastSlash (cs : List Char) : List Char :=
  match splitLast '/' cs with
  | some (_, after) => after
  | none => cs

/-- Decimal digit test. -/
def isDigitChar (c : Char) : Bool := '0' ≤ c && c ≤ '9'

/-- Value of a list of decimal digit characters, most significant first. -/
def digitsToNat (cs : List Char) : Nat :=
  cs.foldl (fun n c => 10 * n + (c.toNat - 48)) 0

/-- Parse a decimal density literal (digits with at most one dot, as
matched by the density-suffix pattern) into a rational. -/
def decimalToRat (cs : List Char) : Option ℚ :=
  match cs.splitOn '.' with
  | [ip] =>
    if ip ≠ [] ∧ ip.all isDigitChar then some (digitsToNat ip : ℚ) else none
  | [ip, fp] =>
    if (ip ≠ [] ∨ fp ≠ []) ∧ ip.all isDigitChar ∧ fp.all isDigitChar then
      some ((digitsToNat ip : ℚ) + (digitsToNat fp : ℚ) / ((10 : ℚ) ^ fp.length))
    else none
  | _ => none

/-! ### The external filename parser and the node path collaborators -/

/-- Result of parsing one asset filename, mirroring the record returned by
`getAssetDataFromName`. -/
structure AssetData where
  assetName : String
  name : String
  resolution : ℚ
  type : String
deriving DecidableEq

/-- Modelled from the spec: the external filename-parsing collaborator
`getAssetDataFromName` (its file `src/packager/react-packager/src/lib/getAssetDataFromName.js`
is not part of the sources; the spec describes it as the pure function
splitting a path into name, resolution and extension, where a density
suffix looks like `@2x` or `@1.5x` right before the extension and a
missing suffix means resolution 1). `assetName` is the filename with the
density suffix removed, `name` additionally drops the directory part and
the extension, `type` is the extension without its dot. -/
def getAssetDataFromName (filename : String) : AssetData :=
  let cs := filename.data
  let p : List Char × List Char :=
    match splitLast '.' cs with
    | some (before, after) => (before, '.' :: after)
    | none => (cs, [])
  let stem := p.1
  let extChars := p.2
  let type : String :=
    match extChars with
    | [] => ""
    | _ :: t => String.mk t
  let plain : AssetData :=
    { assetName := filename, name := String.mk (afterLastSlash stem),
      resolution := 1, type := type }
  match splitLast '@' stem with
  | none => plain
  | some (base, suffix) =>
    if suffix.getLast? = some 'x' then
      match decimalToRat suffix.dropLast with
      | some r =>
        { assetName := String.mk (base ++ extChars),
          name := String.mk (afterLastSlash base),
          resolution := r, type := type }
      | none => plain
    else plain

/-- Modelled from the spec: node's `path.join` collaborator, restricted to
joining a directory and a relative segment with a separator (no
normalisation is needed by the engine). -/
def pathJoin (a b : String) : String := a ++ "/" ++ b

/-- Modelled from the spec: node's `path.dirname` collaborator — the part
before the last slash, or `"."` when there is no slash. -/
def pathDirname (s : String) : String :=
  match splitLast '/' s.data with
  | some (before, _) => String.mk before
  | none => "."

/-- Modelled from the spec: node's `path.basename` collaborator — the part
after the last slash. -/
def pathBasename (s : String) : String := String.mk (afterLastSlash s.data)

/-! ### Asset records and `buildAssetMap` -/

/-- One logical asset's density variants: parallel `scales` and `files`
sequences, as built by `buildAssetMap`. -/
structure AssetRecord where
  scales : List ℚ
  files : List String
deriving DecidableEq

/-- The insertion position computed by the `for`/`break` scan in
`buildAssetMap`: the first index whose scale is strictly greater than
`res`, or the length when there is none. -/
def insertIndexFor (res : ℚ) : List ℚ → Nat
  | [] => 0
  | s :: ss => if res < s then 0 else insertIndexFor res ss + 1

/-- JS `Array.prototype.splice(n, 0, x)`: insert `x` at position `n`,
clamping positions past the end to the end. -/
def spliceInsert {α : Type} : Nat → α → List α → List α
  | 0, x, l => x :: l
  | _ + 1, x, [] => [x]
  | n + 1, x, h :: t => h :: spliceInsert n x t

/-- One iteration of `buildAssetMap`'s `forEach` body on an existing
record: splice the resolution and the directory-qualified path into the
parallel sequences at the position found by the scan. -/
def insertAsset (resolution : ℚ) (file : String) (r : AssetRecord) : AssetRecord :=
  let insertIndex := insertIndexFor resolution r.scales
  { scales := spliceInsert insertIndex resolution r.scales,
    files := spliceInsert insertIndex file r.files }

/-- The empty record created on first sight of an asset name. -/
def emptyRecord : AssetRecord := { scales := [], files := [] }

/-- The `forEach` body of `buildAssetMap`: parse the filename, fetch (or
create) the record for its asset name, and splice the variant in. -/
def buildStep (dir : String) (map : String → Option AssetRecord) (file : String) :
    String → Option AssetRecord :=
  let asset := getAssetDataFromName file
  let record := (map asset.assetName).getD emptyRecord
  fun name =>
    if name = asset.assetName then
      some (insertAsset asset.resolution (pathJoin dir file) record)
    else map name

/-- `buildAssetMap(dir, files)`: fold the listing into a prototype-free
map from asset name to record (`Object.create(null)` is the everywhere-
`none` function; property update is pointwise function update). -/
def buildAssetMap (dir : String) (files : List String) : String → Option AssetRecord :=
  files.foldl (buildStep dir) (fun _ => none)

/-! ### Variant selection (the loop of `AssetServer.prototype.get`) -/

/-- Index search of `get`'s loop: the first `i` with
`record.scales[i] >= assetData.resolution`. -/
def firstQualifyingIndex (res : ℚ) : List ℚ → Option Nat
  | [] => none
  | s :: ss => if res ≤ s then some 0 else (firstQualifyingIndex res ss).map (· + 1)

/-- The file chosen by `get`: the file at the first qualifying scale, and
otherwise `record.files[record.files.length - 1]` (`none` models the
JS `undefined` of an out-of-range access). -/
def recordSelect (record : AssetRecord) (resolution : ℚ) : Option String :=
  match firstQualifyingIndex resolution record.scales with
  | some i => record.files.get? i
  | none => record.files.get? (record.files.length - 1)

end Packager

namespace Packager

example : getAssetDataFromName "icon@2x.png" =
    { assetName := "icon.png", name := "icon", resolution := 2, type := "png" } := by decide

example : getAssetDataFromName "icon.png" =
    { assetName := "icon.png", name := "icon", resolution := 1, type := "png" } := by decide

example : (getAssetDataFromName "a@1.5x.jpg").assetName = "a.jpg" := by decide

example : getAssetDataFromName "b@25x.png" =
    { assetName := "b.png", name := "b", resolution := 25, type := "png" } := by decide

example : getAssetDataFromName "a@1x.png" =
    { assetName := "a.png", name := "a", resolution := 1, type := "png" } := by decide

example : pathDirname "assets/icon.png" = "assets" := by decide

example : pathBasename "assets/icon@2x.png" = "icon@2x.png" := by decide

example :
    buildAssetMap "d" ["a@3x.png", "a.png", "a@2x.png"] "a.png" =
      some { scales := [1, 2, 3], files := ["d/a.png", "d/a@2x.png", "d/a@3x.png"] } := by
  decide

end Packager

namespace Packager

/-! ### I/O collaborators, `findRoot`, and the server pipeline -/

/-- Modelled from the spec: the failure codes of the I/O collaborators
(`fs.lstat`, `fs.readdir`, `fs.readFile` are external). `enoent` is
non-existence; `eacces` stands for any other reason, e.g. permission
denied. -/
inductive IOErr : Type
  | enoent
  | eacces
deriving DecidableEq

/-- Modelled from the spec: the slice of an `fs.lstat` result the engine
consults — the directory flag and the modification time in milliseconds
(`stat.mtime.getTime()`). -/
structure Stat where
  isDirectory : Bool
  mtimeMs : ℤ
deriving DecidableEq

/-- Modelled from the spec: the file-system collaborators, as pure
functions from paths to results. -/
structure FSModel where
  lstat : String → Except IOErr Stat
  readDir : String → Except IOErr (List String)
  readFile : String → Except IOErr String

/-- The rejection reason of one root's probe promise inside `findRoot`:
either the `lstat` rejection, or the `throw new Error('Looking for dirs')`
raised when the path exists but is not a directory. -/
inductive ProbeErr : Type
  | io (e : IOErr)
  | lookingForDirs
deriving DecidableEq

/-- One root's probe promise in `findRoot`: `lstat(path.join(root, dir))`,
then fail unless the result is a directory, else fulfil with the
candidate path (the source stores it on `stat._path`; the model returns
the path directly). -/
def probeRoot (fs : FSModel) (dir root : String) : Except ProbeErr String :=
  let absPath := pathJoin root dir
  match fs.lstat absPath with
  | .error e => .error (.io e)
  | .ok stat => if stat.isDirectory then .ok absPath else .error .lookingForDirs

/-- bluebird's `Promise.some(promises, 1)`: settle the promises in the
given completion order (`order` lists promise indices, first to complete
first); fulfil with the value of the first fulfilled promise, and when
none fulfils, reject with an `AggregateError` carrying every rejection
reason in completion order. Indices outside the array are skipped. -/
def promiseSomeLoop (results : List (Except ProbeErr String)) :
    List Nat → List ProbeErr → Except (List ProbeErr) String
  | [], errs => .error errs.reverse
  | i :: rest, errs =>
    match results.get? i with
    | none => promiseSomeLoop results rest errs
    | some (.ok v) => .ok v
    | some (.error e) => promiseSomeLoop results rest (e :: errs)

/-- `findRoot(roots, dir)`: race the per-root probes through
`Promise.some(..., 1)` and return the winning candidate path. `order`
is the completion order of the probe promises. -/
def findRoot (roots : List String) (dir : String) (fs : FSModel) (order : List Nat) :
    Except (List ProbeErr) String :=
  promiseSomeLoop (roots.map (probeRoot fs dir)) order []

/-- Every failure the resolution pipeline can surface. -/
inductive ResolveErr : Type
  | rootNotFound (reasons : List ProbeErr)
  | ioError (e : IOErr)
  | assetNotFound
  | undefinedRead
deriving DecidableEq

/-- The server state built by the `AssetServer(options)` constructor:
`this._roots = opts.projectRoots; this._assetExts = opts.assetExts`. -/
structure AssetServer where
  _roots : List String
  _assetExts : List String

/-- The metadata object produced by `getAssetData`. -/
structure AssetMetadata where
  name : String
  type : String
  scales : List ℚ
  hash : String
deriving DecidableEq

/-- `AssetServer.prototype._getAssetRecord(assetPath)`: locate the
directory among the roots, list it, build the asset map, and look up the
record for the parsed asset name; a missing record is
`throw new Error('Asset not found')`. -/
def AssetServer._getAssetRecord (server : AssetServer) (fs : FSModel) (order : List Nat)
    (assetPath : String) : Except ResolveErr AssetRecord :=
  let filename := pathBasename assetPath
  match findRoot server._roots (pathDirname assetPath) fs order with
  | .error reasons => .error (.rootNotFound reasons)
  | .ok dir =>
    match fs.readDir dir with
    | .error e => .error (.ioError e)
    | .ok files =>
      let assetData := getAssetDataFromName filename
      match buildAssetMap dir files assetData.assetName with
      | none => .error .assetNotFound
      | some record => .ok record

/-- `AssetServer.prototype.get(assetPath)`: resolve the record, select the
variant for the requested resolution, and read it. -/
def AssetServer.get (server : AssetServer) (fs : FSModel) (order : List Nat)
    (assetPath : String) : Except ResolveErr String :=
  let assetData := getAssetDataFromName assetPath
  match server._getAssetRecord fs order assetPath with
  | .error e => .error e
  | .ok record =>
    match recordSelect record assetData.resolution with
    | none => .error .undefinedRead
    | some file =>
      match fs.readFile file with
      | .error e => .error (.ioError e)
      | .ok content => .ok content

/-! ### Fingerprinting (`getAssetData`) -/

/-- `digitChar d` is the ASCII digit for `d < 10`. -/
def digitChar (d : Nat) : Char := Char.ofNat (48 + d)

/-- Decimal digit characters of `n`, most significant first (`fuel`-guarded
division recursion; `natCharsAux fuel n` is the digits of `n` whenever
`n ≤ fuel`). -/
def natCharsAux : Nat → Nat → List Char
  | 0, _ => []
  | _ + 1, 0 => []
  | fuel + 1, n + 1 => natCharsAux fuel ((n + 1) / 10) ++ [digitChar ((n + 1) % 10)]

/-- JS `Number.prototype.toString()` on a non-negative integer. -/
def natChars (n : Nat) : List Char :=
  if n = 0 then ['0'] else natCharsAux n n

/-- JS `Number.prototype.toString()` on an integer (the form
`stat.mtime.getTime().toString()` feeds to the digest). -/
def intChars : ℤ → List Char
  | .ofNat n => natChars n
  | .negSucc n => '-' :: natChars (n + 1)

/-- The byte stream fed to the MD5 digest: the timestamp strings of the
record's files, concatenated in record order by the repeated
`hash.update(...)` calls. -/
def hashInput (mtimes : List ℤ) : List Char := (mtimes.map intChars).flatten

/-- `Promise.all(record.files.map(lstat))`: all stats, or the first
rejection. -/
def lstatAll (fs : FSModel) : List String → Except IOErr (List Stat)
  | [] => .ok []
  | f :: rest => do
    let st ← fs.lstat f
    let sts ← lstatAll fs rest
    pure (st :: sts)

/-- `AssetServer.prototype.getAssetData(assetPath)`: name and (hard-coded)
type from the parsed path, scales from the record, and the MD5 hex digest
of the concatenated modification-time strings. `md5` is the external
digest collaborator. -/
def AssetServer.getAssetData (server : AssetServer) (md5 : List Char → String)
    (fs : FSModel) (order : List Nat) (assetPath : String) :
    Except ResolveErr AssetMetadata :=
  let nameData := getAssetDataFromName assetPath
  match server._getAssetRecord fs order assetPath with
  | .error e => .error e
  | .ok record =>
    match lstatAll fs record.files with
    | .error e => .error (.ioError e)
    | .ok stats =>
      .ok { name := nameData.name, type := "png",
            scales := record.scales,
            hash := md5 (hashInput (stats.map (fun st => st.mtimeMs))) }

/-- The fingerprint of a record's files under a per-file modification-time
assignment — what `getAssetData` computes once every `lstat` succeeded. -/
def fingerprint (md5 : List Char → String) (mtimes : String → ℤ)
    (files : List String) : String :=
  md5 (hashInput (files.map mtimes))

end Packager

namespace Packager

example : natChars 0 = ['0'] := by decide

example : natChars 23 = ['2', '3'] := by decide

example : intChars (-145) = ['-', '1', '4', '5'] := by decide

example : hashInput [1, 23] = ['1', '2', '3'] := by decide

example : hashInput [12, 3] = ['1', '2', '3'] := by decide

end Packager

namespace Packager

/-! ### Lemmas about the selection loop of `get` -/

lemma firstQualifyingIndex_lt_length {res : ℚ} {scales : List ℚ} {i : Nat}
    (h : firstQualifyingIndex res scales = some i) : i < scales.length := by
  induction scales generalizing i with
  | nil => simp [firstQualifyingIndex] at h
  | cons s ss ih =>
    rw [firstQualifyingIndex] at h
    by_cases hle : res ≤ s
    · rw [if_pos hle] at h
      cases h
      simp
    · rw [if_neg hle] at h
      rcases Option.map_eq_some'.mp h with ⟨j, hj, rfl⟩
      have := ih hj
      simp only [List.length_cons]
      omega

lemma firstQualifyingIndex_get {res : ℚ} {scales : List ℚ} {i : Nat}
    (h : firstQualifyingIndex res scales = some i) :
    ∃ s, scales.get? i = some s ∧ res ≤ s := by
  induction scales generalizing i with
  | nil => simp [firstQualifyingIndex] at h
  | cons s ss ih =>
    rw [firstQualifyingIndex] at h
    by_cases hle : res ≤ s
    · rw [if_pos hle] at h
      cases h
      exact ⟨s, rfl, hle⟩
    · rw [if_neg hle] at h
      rcases Option.map_eq_some'.mp h with ⟨j, hj, rfl⟩
      rcases ih hj with ⟨t, ht, hres⟩
      exact ⟨t, ht, hres⟩

lemma firstQualifyingIndex_first {res : ℚ} {scales : List ℚ} {i : Nat}
    (h : firstQualifyingIndex res scales = some i) :
    ∀ j t, j < i → scales.get? j = some t → t < res := by
  induction scales generalizing i with
  | nil => simp [firstQualifyingIndex] at h
  | cons s ss ih =>
    rw [firstQualifyingIndex] at h
    by_cases hle : res ≤ s
    · rw [if_pos hle] at h
      cases h
      intro j t hj
      omega
    · rw [if_neg hle] at h
      rcases Option.map_eq_some'.mp h with ⟨j, hj, rfl⟩
      intro k t hk hget
      cases k with
      | zero =>
        rw [List.get?_cons_zero] at hget
        cases hget
        exact lt_of_not_le hle
      | succ k =>
        rw [List.get?_cons_succ] at hget
        exact ih hj k t (by omega) hget

lemma firstQualifyingIndex_eq_none {res : ℚ} {scales : List ℚ}
    (h : firstQualifyingIndex res scales = none) : ∀ s ∈ scales, s < res := by
  induction scales with
  | nil => simp
  | cons s ss ih =>
    rw [firstQualifyingIndex] at h
    by_cases hle : res ≤ s
    · rw [if_pos hle] at h; cases h
    · rw [if_neg hle] at h
      intro t ht
      rcases List.mem_cons.mp ht with rfl | hmem
      · exact lt_of_not_le hle
      · exact ih (by simpa using h) t hmem

lemma firstQualifyingIndex_isSome {res : ℚ} {scales : List ℚ} {s : ℚ}
    (hmem : s ∈ scales) (hle : res ≤ s) : (firstQualifyingIndex res scales).isSome := by
  induction scales with
  | nil => simp at hmem
  | cons t ts ih =>
    rw [firstQualifyingIndex]
    by_cases hts : res ≤ t
    · rw [if_pos hts]; rfl
    · rw [if_neg hts]
      rcases List.mem_cons.mp hmem with rfl | hmem'
      · exact absurd hle hts
      · have := ih hmem'
        simpa using this

end Packager

namespace Packager

/-- **C1**: for an asset record with ascending scales (parallel sequences,
non-degenerate), `get`'s selection returns the file at the first scale
greater than or equal to the requested resolution, and when no scale
qualifies it returns the file at the highest scale (the last position);
in both cases selection yields a file and never fails for that reason. -/
theorem get_picks_first_scale_at_least_resolution
    (record : AssetRecord) (res : ℚ)
    (hsorted : record.scales.Sorted (· ≤ ·))
    (hlen : record.scales.length = record.files.length)
    (hne : record.scales ≠ []) :
    ((∃ s ∈ record.scales, res ≤ s) →
      ∃ i s, record.scales.get? i = some s ∧ res ≤ s ∧
        (∀ j t, j < i → record.scales.get? j = some t → t < res) ∧
        recordSelect record res = record.files.get? i ∧
        (record.files.get? i).isSome) ∧
    ((∀ s ∈ record.scales, s < res) →
      ∃ smax, record.scales.get? (record.scales.length - 1) = some smax ∧
        (∀ s ∈ record.scales, s ≤ smax) ∧
        recordSelect record res = record.files.get? (record.files.length - 1)) ∧
    (recordSelect record res).isSome := by
  have hfiles_ne : record.files ≠ [] := by
    intro h
    apply hne
    have := hlen
    rw [h] at this
    simpa using List.length_eq_zero.mp this
  refine ⟨?_, ?_, ?_⟩
  · rintro ⟨s, hmem, hle⟩
    have hsome : (firstQualifyingIndex res record.scales).isSome :=
      firstQualifyingIndex_isSome hmem hle
    rcases Option.isSome_iff_exists.mp hsome with ⟨i, hi⟩
    rcases firstQualifyingIndex_get hi with ⟨t, hget, hres⟩
    have hlt := firstQualifyingIndex_lt_length hi
    refine ⟨i, t, hget, hres, firstQualifyingIndex_first hi, ?_, ?_⟩
    · rw [recordSelect, hi]
    · rw [List.get?_eq_get (by omega : i < record.files.length)]
      rfl
  · intro hall
    have hnone : firstQualifyingIndex res record.scales = none := by
      cases hfqi : firstQualifyingIndex res record.scales with
      | none => rfl
      | some i =>
        rcases firstQualifyingIndex_get hfqi with ⟨t, hget, hres⟩
        have := hall t (List.get?_mem hget)
        exact absurd hres (not_le.mpr this)
    have hpos : 0 < record.scales.length := List.length_pos.mpr hne
    have hidx : record.scales.length - 1 < record.scales.length := by omega
    refine ⟨record.scales.get ⟨record.scales.length - 1, hidx⟩, List.get?_eq_get hidx, ?_, ?_⟩
    · intro s hmem
      rcases List.mem_iff_get.mp hmem with ⟨j, rfl⟩
      have hjlt := j.isLt
      exact hsorted.rel_get_of_le (by simp only [Fin.le_def]; omega)
    · rw [recordSelect, hnone]
  · cases hfqi : firstQualifyingIndex res record.scales with
    | some i =>
      have hlt := firstQualifyingIndex_lt_length hfqi
      have hsel : recordSelect record res = record.files.get? i := by
        rw [recordSelect, hfqi]
      rw [hsel, List.get?_eq_get (by omega : i < record.files.length)]
      rfl
    | none =>
      have hsel : recordSelect record res = record.files.get? (record.files.length - 1) := by
        rw [recordSelect, hfqi]
      have hpos : 0 < record.files.length := List.length_pos.mpr hfiles_ne
      rw [hsel, List.get?_eq_get (by omega : record.files.length - 1 < record.files.length)]
      rfl

/-- Witness for C1 at the record with scales `[1, 2, 3]` and resolution 2. -/
theorem get_picks_first_scale_witness :
    (([1, 2, 3] : List ℚ).Sorted (· ≤ ·) ∧
      ([1, 2, 3] : List ℚ).length = (["f1", "f2", "f3"] : List String).length ∧
      ([1, 2, 3] : List ℚ) ≠ []) ∧
    (recordSelect ⟨[1, 2, 3], ["f1", "f2", "f3"]⟩ 2).isSome :=
  ⟨⟨by decide, by decide, by decide⟩,
    (get_picks_first_scale_at_least_resolution ⟨[1, 2, 3], ["f1", "f2", "f3"]⟩ 2
      (by decide) (by decide) (by decide)).2.2⟩

example : recordSelect ⟨[1, 2, 3], ["f1", "f2", "f3"]⟩ 2 = some "f2" := by decide

example : recordSelect ⟨[1, 2, 3], ["f1", "f2", "f3"]⟩ 5 = some "f3" := by decide

end Packager

namespace Packager

/-! ### Lemmas about splice insertion and the asset map -/

lemma spliceInsert_length {α : Type} (n : Nat) (x : α) (l : List α) :
    (spliceInsert n x l).length = l.length + 1 := by
  induction l generalizing n with
  | nil => cases n <;> rfl
  | cons a t ih =>
    cases n with
    | zero => rfl
    | succ m => simp [spliceInsert, ih]

lemma insertIndexFor_le_length (res : ℚ) (l : List ℚ) : insertIndexFor res l ≤ l.length := by
  induction l with
  | nil => simp [insertIndexFor]
  | cons s ss ih =>
    rw [insertIndexFor]
    by_cases h : res < s
    · simp [h]
    · rw [if_neg h]
      simp only [List.length_cons]
      omega

lemma spliceInsert_eq_take_drop {α : Type} (n : Nat) (x : α) (l : List α) (h : n ≤ l.length) :
    spliceInsert n x l = l.take n ++ x :: l.drop n := by
  induction l generalizing n with
  | nil =>
    cases n with
    | zero => rfl
    | succ m => simp at h
  | cons a t ih =>
    cases n with
    | zero => rfl
    | succ m =>
      simp only [spliceInsert, List.take_succ_cons, List.drop_succ_cons, List.cons_append]
      rw [ih m (by simpa using h)]

lemma mem_spliceInsert {α : Type} {y : α} (n : Nat) (x : α) (l : List α) :
    y ∈ spliceInsert n x l ↔ y = x ∨ y ∈ l := by
  induction l generalizing n with
  | nil => cases n <;> simp [spliceInsert]
  | cons a t ih =>
    cases n with
    | zero => simp [spliceInsert]
    | succ m =>
      simp only [spliceInsert, List.mem_cons, ih]
      tauto

lemma spliceInsert_perm {α : Type} (n : Nat) (x : α) (l : List α) :
    (spliceInsert n x l).Perm (x :: l) := by
  induction l generalizing n with
  | nil => cases n <;> exact List.Perm.refl _
  | cons a t ih =>
    cases n with
    | zero => exact List.Perm.refl _
    | succ m => exact ((ih m).cons a).trans (List.Perm.swap x a t)

lemma sorted_spliceInsert (res : ℚ) (scales : List ℚ) (h : scales.Sorted (· ≤ ·)) :
    (spliceInsert (insertIndexFor res scales) res scales).Sorted (· ≤ ·) := by
  induction scales with
  | nil => simp [insertIndexFor, spliceInsert]
  | cons s ss ih =>
    rcases List.sorted_cons.mp h with ⟨hs, hss⟩
    rw [insertIndexFor]
    by_cases hlt : res < s
    · rw [if_pos hlt]
      refine List.sorted_cons.mpr ⟨?_, h⟩
      intro b hb
      rcases List.mem_cons.mp hb with rfl | hmem
      · exact le_of_lt hlt
      · exact le_trans (le_of_lt hlt) (hs b hmem)
    · rw [if_neg hlt]
      simp only [spliceInsert]
      refine List.sorted_cons.mpr ⟨?_, ih hss⟩
      intro b hb
      rcases (mem_spliceInsert _ _ _).mp hb with rfl | hmem
      · exact le_of_not_lt hlt
      · exact hs b hmem

lemma insertIndexFor_drop {res : ℚ} {scales : List ℚ} (h : scales.Sorted (· ≤ ·)) :
    ∀ s ∈ scales.drop (insertIndexFor res scales), res < s := by
  induction scales with
  | nil => simp
  | cons s ss ih =>
    rcases List.sorted_cons.mp h with ⟨hs, hss⟩
    rw [insertIndexFor]
    by_cases hlt : res < s
    · rw [if_pos hlt]
      intro t ht
      rcases List.mem_cons.mp (by simpa using ht) with rfl | hm
      · exact hlt
      · exact lt_of_lt_of_le hlt (hs t hm)
    · rw [if_neg hlt]
      intro t ht
      exact ih hss t (by simpa using ht)

lemma zip_spliceInsert (a : ℚ) (b : String) :
    ∀ (n : Nat) (l₁ : List ℚ) (l₂ : List String), l₁.length = l₂.length → n ≤ l₁.length →
    (spliceInsert n a l₁).zip (spliceInsert n b l₂) = spliceInsert n (a, b) (l₁.zip l₂)
  | 0, l₁, l₂, _, _ => rfl
  | n + 1, [], l₂, hlen, hn => by simp at hn
  | n + 1, x :: t₁, [], hlen, hn => by simp at hlen
  | n + 1, x :: t₁, y :: t₂, hlen, hn => by
    simp only [spliceInsert, List.zip_cons_cons]
    rw [zip_spliceInsert a b n t₁ t₂ (by simpa using hlen) (by simpa using hn)]
    rfl

lemma zip_drop (l₁ : List ℚ) (l₂ : List String) (n : Nat) :
    (l₁.zip l₂).drop n = (l₁.drop n).zip (l₂.drop n) := by
  induction l₁ generalizing l₂ n with
  | nil => simp
  | cons x t₁ ih =>
    cases l₂ with
    | nil => simp
    | cons y t₂ =>
      cases n with
      | zero => rfl
      | succ m => simp [ih]

lemma filter_spliceInsert (r : ℚ) (e : ℚ × String) (l : List (ℚ × String)) (n : Nat)
    (hn : n ≤ l.length) (hdrop : ∀ x ∈ l.drop n, x.1 ≠ e.1) :
    (spliceInsert n e l).filter (fun x => x.1 = r) =
      if e.1 = r then l.filter (fun x => x.1 = r) ++ [e]
      else l.filter (fun x => x.1 = r) := by
  rw [spliceInsert_eq_take_drop n e l hn, List.filter_append, List.filter_cons]
  by_cases her : e.1 = r
  · rw [if_pos her]
    have hdropf : (l.drop n).filter (fun x => x.1 = r) = [] := by
      rw [List.filter_eq_nil_iff]
      intro x hx
      simp only [decide_eq_true_eq]
      rw [← her]
      exact hdrop x hx
    have hfull : l.filter (fun x => x.1 = r) = (l.take n).filter (fun x => x.1 = r) := by
      conv_lhs => rw [← List.take_append_drop n l]
      rw [List.filter_append, hdropf, List.append_nil]
    rw [if_pos (by simpa using her), hfull, hdropf]
  · rw [if_neg her, if_neg (by simpa using her)]
    conv_rhs => rw [← List.take_append_drop n l]
    rw [List.filter_append]

end Packager

namespace Packager

/-- The listing-order `(resolution, directory-qualified path)` entries of
one asset name: the subsequence of the directory listing that parses to
`name`, as consumed by `buildAssetMap`. -/
def entriesFor (dir name : String) (files : List String) : List (ℚ × String) :=
  (files.filter (fun f => (getAssetDataFromName f).assetName = name)).map
    (fun f => ((getAssetDataFromName f).resolution, pathJoin dir f))

/-- `insertAsset` on an entry pair. -/
def insertEntry (r : AssetRecord) (e : ℚ × String) : AssetRecord := insertAsset e.1 e.2 r

/-- The record obtained by splicing a sequence of entries, in order, into
a starting record — the per-name trace of `buildAssetMap`'s fold. -/
def buildRecord (start : AssetRecord) (es : List (ℚ × String)) : AssetRecord :=
  es.foldl insertEntry start

lemma buildStep_apply (dir : String) (m : String → Option AssetRecord) (file name : String) :
    buildStep dir m file name =
      if name = (getAssetDataFromName file).assetName then
        some (insertAsset (getAssetDataFromName file).resolution (pathJoin dir file)
          ((m (getAssetDataFromName file).assetName).getD emptyRecord))
      else m name := rfl

lemma buildAssetMap_loop (dir : String) (files : List String) (m : String → Option AssetRecord)
    (name : String) :
    files.foldl (buildStep dir) m name =
      if entriesFor dir name files = [] then m name
      else some (buildRecord ((m name).getD emptyRecord) (entriesFor dir name files)) := by
  induction files generalizing m with
  | nil => simp [entriesFor]
  | cons f fs ih =>
    rw [List.foldl_cons, ih]
    by_cases hf : (getAssetDataFromName f).assetName = name
    · subst hf
      have hent : entriesFor dir (getAssetDataFromName f).assetName (f :: fs) =
          ((getAssetDataFromName f).resolution, pathJoin dir f) ::
            entriesFor dir (getAssetDataFromName f).assetName fs := by
        simp [entriesFor, List.filter_cons]
      have hstep : buildStep dir m f (getAssetDataFromName f).assetName =
          some (insertEntry ((m (getAssetDataFromName f).assetName).getD emptyRecord)
            ((getAssetDataFromName f).resolution, pathJoin dir f)) := by
        rw [buildStep_apply, if_pos rfl]
        rfl
      rw [hent, hstep]
      by_cases hes : entriesFor dir (getAssetDataFromName f).assetName fs = []
      · rw [if_pos hes, hes]
        rfl
      · rw [if_neg hes, if_neg (by simp)]
        rfl
    · have hent : entriesFor dir name (f :: fs) = entriesFor dir name fs := by
        simp [entriesFor, List.filter_cons, hf]
      have hstep : buildStep dir m f name = m name := by
        rw [buildStep_apply, if_neg (fun h => hf h.symm)]
      rw [hent, hstep]

end Packager

namespace Packager

lemma insertEntry_scales (r : AssetRecord) (e : ℚ × String) :
    (insertEntry r e).scales = spliceInsert (insertIndexFor e.1 r.scales) e.1 r.scales := rfl

lemma insertEntry_files (r : AssetRecord) (e : ℚ × String) :
    (insertEntry r e).files = spliceInsert (insertIndexFor e.1 r.scales) e.2 r.files := rfl

lemma buildRecord_invariant (es : List (ℚ × String)) (start : AssetRecord)
    (hlen : start.scales.length = start.files.length)
    (hsort : start.scales.Sorted (· ≤ ·)) :
    ((buildRecord start es).scales.length = (buildRecord start es).files.length) ∧
    ((buildRecord start es).scales.Sorted (· ≤ ·)) ∧
    ((buildRecord start es).scales.zip (buildRecord start es).files).Perm
      (start.scales.zip start.files ++ es) ∧
    (∀ r : ℚ, ((buildRecord start es).scales.zip (buildRecord start es).files).filter
        (fun x => x.1 = r) =
      (start.scales.zip start.files).filter (fun x => x.1 = r) ++
        es.filter (fun x => x.1 = r)) := by
  induction es generalizing start with
  | nil =>
    refine ⟨hlen, hsort, ?_, ?_⟩
    · rw [List.append_nil]
      exact List.Perm.refl _
    · intro r
      rw [List.filter_nil, List.append_nil]
      rfl
  | cons e es ih =>
    have hlen' : (insertEntry start e).scales.length = (insertEntry start e).files.length := by
      rw [insertEntry_scales, insertEntry_files, spliceInsert_length, spliceInsert_length, hlen]
    have hsort' : (insertEntry start e).scales.Sorted (· ≤ ·) := by
      rw [insertEntry_scales]
      exact sorted_spliceInsert e.1 start.scales hsort
    have hzip' : (insertEntry start e).scales.zip (insertEntry start e).files =
        spliceInsert (insertIndexFor e.1 start.scales) e (start.scales.zip start.files) := by
      rw [insertEntry_scales, insertEntry_files,
        zip_spliceInsert e.1 e.2 (insertIndexFor e.1 start.scales) start.scales start.files hlen
          (insertIndexFor_le_length _ _)]
    have hn : insertIndexFor e.1 start.scales ≤ (start.scales.zip start.files).length := by
      rw [List.length_zip]
      have := insertIndexFor_le_length e.1 start.scales
      omega
    have hdrop : ∀ x ∈ (start.scales.zip start.files).drop (insertIndexFor e.1 start.scales),
        x.1 ≠ e.1 := by
      intro x hx
      rw [zip_drop] at hx
      have hx1 := (List.of_mem_zip hx).1
      exact (ne_of_lt (insertIndexFor_drop hsort x.1 hx1)).symm
    obtain ⟨ihlen, ihsort, ihperm, ihfilter⟩ := ih (insertEntry start e) hlen' hsort'
    refine ⟨ihlen, ihsort, ?_, ?_⟩
    · refine ihperm.trans ?_
      rw [hzip']
      exact ((spliceInsert_perm _ e _).append_right es).trans List.perm_middle.symm
    · intro r
      have hstep := filter_spliceInsert r e (start.scales.zip start.files)
        (insertIndexFor e.1 start.scales) hn hdrop
      calc ((buildRecord start (e :: es)).scales.zip (buildRecord start (e :: es)).files).filter
            (fun x => x.1 = r)
          = ((insertEntry start e).scales.zip (insertEntry start e).files).filter
              (fun x => x.1 = r) ++ es.filter (fun x => x.1 = r) := ihfilter r
        _ = (if e.1 = r then (start.scales.zip start.files).filter (fun x => x.1 = r) ++ [e]
              else (start.scales.zip start.files).filter (fun x => x.1 = r)) ++
            es.filter (fun x => x.1 = r) := by rw [hzip', hstep]
        _ = (start.scales.zip start.files).filter (fun x => x.1 = r) ++
            (e :: es).filter (fun x => x.1 = r) := by
            rw [List.filter_cons]
            by_cases her : e.1 = r
            · rw [if_pos her, if_pos (by simpa using her)]
              simp
            · rw [if_neg her, if_neg (by simpa using her)]

lemma buildAssetMap_spec (dir : String) (files : List String) (name : String) :
    buildAssetMap dir files name =
      if entriesFor dir name files = [] then none
      else some (buildRecord emptyRecord (entriesFor dir name files)) := by
  rw [buildAssetMap, buildAssetMap_loop]
  rfl

end Packager

namespace Packager

lemma recordSelect_isSome_of (record : AssetRecord)
    (hlen : record.scales.length = record.files.length)
    (hne : record.files ≠ []) (res : ℚ) : (recordSelect record res).isSome := by
  cases hfqi : firstQualifyingIndex res record.scales with
  | some i =>
    have hlt := firstQualifyingIndex_lt_length hfqi
    have hsel : recordSelect record res = record.files.get? i := by
      rw [recordSelect, hfqi]
    rw [hsel, List.get?_eq_get (by omega : i < record.files.length)]
    rfl
  | none =>
    have hsel : recordSelect record res = record.files.get? (record.files.length - 1) := by
      rw [recordSelect, hfqi]
    have hpos : 0 < record.files.length := List.length_pos.mpr hne
    rw [hsel, List.get?_eq_get (by omega : record.files.length - 1 < record.files.length)]
    rfl

/-- **C2**: every record produced by `buildAssetMap` has `scales` and
`files` of equal length, `scales` sorted ascending with `files` permuted
identically (the paired sequences are a permutation of the listing-order
entries of that name), and entries of identical resolution keep listing
order (the filtered subsequence at any fixed resolution equals the
listing-order subsequence). -/
theorem buildAssetMap_record_ordering (dir : String) (files : List String)
    (name : String) (record : AssetRecord)
    (h : buildAssetMap dir files name = some record) :
    record.scales.length = record.files.length ∧
    record.scales.Sorted (· ≤ ·) ∧
    (record.scales.zip record.files).Perm (entriesFor dir name files) ∧
    ∀ r : ℚ, (record.scales.zip record.files).filter (fun x => x.1 = r) =
      (entriesFor dir name files).filter (fun x => x.1 = r) := by
  rw [buildAssetMap_spec] at h
  by_cases hne : entriesFor dir name files = []
  · rw [if_pos hne] at h
    simp at h
  · rw [if_neg hne] at h
    injection h with h
    subst h
    obtain ⟨hlen, hsort, hperm, hfilter⟩ :=
      buildRecord_invariant (entriesFor dir name files) emptyRecord rfl List.sorted_nil
    exact ⟨hlen, hsort, hperm, hfilter⟩

/-- Witness for C2 on the listing with resolutions `[3, 1, 2]` of one
asset name. -/
theorem buildAssetMap_record_ordering_witness :
    buildAssetMap "d" ["a@3x.png", "a.png", "a@2x.png"] "a.png" =
      some ⟨[1, 2, 3], ["d/a.png", "d/a@2x.png", "d/a@3x.png"]⟩ ∧
    (AssetRecord.mk [1, 2, 3] ["d/a.png", "d/a@2x.png", "d/a@3x.png"]).scales.Sorted (· ≤ ·) :=
  ⟨by decide,
    (buildAssetMap_record_ordering "d" ["a@3x.png", "a.png", "a@2x.png"] "a.png"
      ⟨[1, 2, 3], ["d/a.png", "d/a@2x.png", "d/a@3x.png"]⟩ (by decide)).2.1⟩

/-- **C9**: a record found in the built asset map is never empty, so
`get`'s selection — including the fallback access
`record.files[record.files.length - 1]` — always stays in bounds and
yields a file. -/
theorem buildAssetMap_record_nonempty_selection (dir : String) (files : List String)
    (name : String) (record : AssetRecord) (res : ℚ)
    (h : buildAssetMap dir files name = some record) :
    record.files ≠ [] ∧ (recordSelect record res).isSome := by
  rw [buildAssetMap_spec] at h
  by_cases hne : entriesFor dir name files = []
  · rw [if_pos hne] at h
    simp at h
  · rw [if_neg hne] at h
    injection h with h
    subst h
    obtain ⟨hlen, hsort, hperm, _⟩ :=
      buildRecord_invariant (entriesFor dir name files) emptyRecord rfl List.sorted_nil
    have hfne : (buildRecord emptyRecord (entriesFor dir name files)).files ≠ [] := by
      intro hnil
      apply hne
      have hz : (buildRecord emptyRecord (entriesFor dir name files)).scales.zip
          (buildRecord emptyRecord (entriesFor dir name files)).files = [] := by
        rw [hnil, List.zip_nil_right]
      rw [hz] at hperm
      exact (hperm.symm.eq_nil)
    exact ⟨hfne, recordSelect_isSome_of _ hlen hfne res⟩

/-- Witness for C9. -/
theorem buildAssetMap_record_nonempty_selection_witness :
    buildAssetMap "d" ["a@3x.png", "a.png", "a@2x.png"] "a.png" =
      some ⟨[1, 2, 3], ["d/a.png", "d/a@2x.png", "d/a@3x.png"]⟩ ∧
    (recordSelect ⟨[1, 2, 3], ["d/a.png", "d/a@2x.png", "d/a@3x.png"]⟩ 7).isSome :=
  ⟨by decide,
    (buildAssetMap_record_nonempty_selection "d" ["a@3x.png", "a.png", "a@2x.png"] "a.png"
      ⟨[1, 2, 3], ["d/a.png", "d/a@2x.png", "d/a@3x.png"]⟩ 7 (by decide)).2⟩

end Packager

namespace Packager

/-! ### `findRoot` and the completion-order race -/

deriving instance DecidableEq for Except

/-- Whether a settled promise fulfilled. -/
def promiseFulfilled {ε α : Type} : Except ε α → Bool
  | .ok _ => true
  | .error _ => false

/-- Fixture: both `A/d` and `B/d` are directories. -/
def fsBoth : FSModel :=
  { lstat := fun p =>
      if p = "A/d" ∨ p = "B/d" then .ok { isDirectory := true, mtimeMs := 0 }
      else .error .enoent,
    readDir := fun _ => .error .enoent,
    readFile := fun _ => .error .enoent }

/-- Fixture: only `B/d` is a directory, `A/d` does not exist. -/
def fsOnlyB : FSModel :=
  { lstat := fun p =>
      if p = "B/d" then .ok { isDirectory := true, mtimeMs := 0 }
      else .error .enoent,
    readDir := fun _ => .error .enoent,
    readFile := fun _ => .error .enoent }

/-- Fixture: probing `A/d` is denied with a permission error, `B/d` is a
directory. -/
def fsDenyA : FSModel :=
  { lstat := fun p =>
      if p = "A/d" then .error .eacces
      else if p = "B/d" then .ok { isDirectory := true, mtimeMs := 0 }
      else .error .enoent,
    readDir := fun _ => .error .enoent,
    readFile := fun _ => .error .enoent }

/-- Fixture: every probe is denied with a permission error. -/
def fsDenyAll : FSModel :=
  { lstat := fun _ => .error .eacces,
    readDir := fun _ => .error .enoent,
    readFile := fun _ => .error .enoent }

lemma promiseSomeLoop_append_ok (results : List (Except ProbeErr String))
    (o₁ o₂ : List Nat) (i : Nat) (p : String) (errs : List ProbeErr)
    (hok : results.get? i = some (.ok p))
    (hfail : ∀ j ∈ o₁,
      promiseFulfilled ((results.get? j).getD (.error .lookingForDirs)) = false) :
    promiseSomeLoop results (o₁ ++ i :: o₂) errs = .ok p := by
  induction o₁ generalizing errs with
  | nil =>
    rw [List.nil_append]
    simp only [promiseSomeLoop, hok]
  | cons j t ih =>
    rw [List.cons_append]
    simp only [promiseSomeLoop]
    have hj := hfail j (List.mem_cons_self j t)
    have hrest : ∀ k ∈ t,
        promiseFulfilled ((results.get? k).getD (.error .lookingForDirs)) = false :=
      fun k hk => hfail k (List.mem_cons_of_mem j hk)
    cases hget : results.get? j with
    | none => exact ih errs hrest
    | some r =>
      cases r with
      | ok v =>
        rw [hget] at hj
        simp [promiseFulfilled] at hj
      | error e => exact ih (e :: errs) hrest

lemma promiseSomeLoop_fulfilled_iff (results : List (Except ProbeErr String))
    (order : List Nat) (errs : List ProbeErr) :
    promiseFulfilled (promiseSomeLoop results order errs) = true ↔
      ∃ j ∈ order, ∃ q, results.get? j = some (.ok q) := by
  induction order generalizing errs with
  | nil => simp [promiseSomeLoop, promiseFulfilled]
  | cons i rest ih =>
    simp only [promiseSomeLoop]
    cases hget : results.get? i with
    | none =>
      rw [ih errs]
      constructor
      · rintro ⟨j, hj, q, hq⟩
        exact ⟨j, List.mem_cons_of_mem i hj, q, hq⟩
      · rintro ⟨j, hj, q, hq⟩
        rcases List.mem_cons.mp hj with rfl | hj'
        · rw [hget] at hq
          cases hq
        · exact ⟨j, hj', q, hq⟩
    | some r =>
      cases r with
      | ok v =>
        simp only [promiseFulfilled, true_iff]
        exact ⟨i, List.mem_cons_self i rest, v, hget⟩
      | error e =>
        rw [ih (e :: errs)]
        constructor
        · rintro ⟨j, hj, q, hq⟩
          exact ⟨j, List.mem_cons_of_mem i hj, q, hq⟩
        · rintro ⟨j, hj, q, hq⟩
          rcases List.mem_cons.mp hj with rfl | hj'
          · rw [hget] at hq
            cases hq
          · exact ⟨j, hj', q, hq⟩

lemma promiseSomeLoop_all_fail (results : List (Except ProbeErr String))
    (order : List Nat) (errs : List ProbeErr)
    (hfail : ∀ j ∈ order,
      promiseFulfilled ((results.get? j).getD (.error .lookingForDirs)) = false) :
    promiseSomeLoop results order errs =
      .error (errs.reverse ++ order.filterMap (fun j =>
        match results.get? j with
        | some (.error e) => some e
        | _ => none)) := by
  induction order generalizing errs with
  | nil => simp [promiseSomeLoop]
  | cons i rest ih =>
    simp only [promiseSomeLoop, List.filterMap_cons]
    have hi := hfail i (List.mem_cons_self i rest)
    have hrest : ∀ k ∈ rest,
        promiseFulfilled ((results.get? k).getD (.error .lookingForDirs)) = false :=
      fun k hk => hfail k (List.mem_cons_of_mem i hk)
    cases hget : results.get? i with
    | none => exact ih errs hrest
    | some r =>
      cases r with
      | ok v =>
        rw [hget] at hi
        simp [promiseFulfilled] at hi
      | error e =>
        refine (ih (e :: errs) hrest).trans ?_
        simp

end Packager

namespace Packager

/-- C3 counterexample: roots `["A", "B"]` both contain directory `d`
(candidates `A/d`, `B/d`), but when root 1's probe completes first,
`findRoot` returns `B/d` — not root 0's candidate `A/d` as the claim
requires — and with the opposite completion order it returns `A/d`, so
the result depends on completion order. -/
theorem findRoot_completion_order_counterexample :
    findRoot ["A", "B"] "d" fsBoth [1, 0] = .ok "B/d" ∧
    findRoot ["A", "B"] "d" fsBoth [0, 1] = .ok "A/d" ∧
    pathJoin "A" "d" = "A/d" ∧
    fsBoth.lstat "A/d" = .ok { isDirectory := true, mtimeMs := 0 } ∧
    fsBoth.lstat "B/d" = .ok { isDirectory := true, mtimeMs := 0 } ∧
    ("B/d" : String) ≠ "A/d" := by decide

/-- **C3 amended**: `findRoot` is a plain race over `Promise.some`: it
returns the candidate of the first probe in *completion order* that
fulfils (so in particular, when exactly one root qualifies the result is
that root's candidate, but when several qualify the winner is decided by
completion order, not root order). -/
theorem findRoot_first_completed_success (roots : List String) (dir : String)
    (fs : FSModel) (o₁ o₂ : List Nat) (i : Nat) (p : String)
    (hok : (roots.map (probeRoot fs dir)).get? i = some (.ok p))
    (hfail : ∀ j ∈ o₁,
      promiseFulfilled (((roots.map (probeRoot fs dir)).get? j).getD
        (.error .lookingForDirs)) = false) :
    findRoot roots dir fs (o₁ ++ i :: o₂) = .ok p := by
  rw [findRoot]
  exact promiseSomeLoop_append_ok _ o₁ o₂ i p [] hok hfail

/-- Witness for the amended C3: only `B/d` exists; the probe of root 0
completes first and rejects, so root 1's candidate wins. -/
theorem findRoot_first_completed_success_witness :
    ((["A", "B"].map (probeRoot fsOnlyB "d")).get? 1 = some (.ok "B/d") ∧
      (∀ j ∈ [0],
        promiseFulfilled (((["A", "B"].map (probeRoot fsOnlyB "d")).get? j).getD
          (.error .lookingForDirs)) = false)) ∧
    findRoot ["A", "B"] "d" fsOnlyB ([0] ++ 1 :: []) = .ok "B/d" :=
  ⟨⟨by decide, by decide⟩,
    findRoot_first_completed_success ["A", "B"] "d" fsOnlyB [0] [] 1 "B/d"
      (by decide) (by decide)⟩

/-- C4 counterexample: root 0's probe fails with a permission error
(`eacces`, not non-existence), yet `findRoot` does not propagate it: it
fulfils with root 1's candidate, treating the denied candidate exactly
like a missing one. -/
theorem findRoot_swallows_io_error_counterexample :
    probeRoot fsDenyA "d" "A" = .error (.io .eacces) ∧
    findRoot ["A", "B"] "d" fsDenyA [0, 1] = .ok "B/d" ∧
    findRoot ["A", "B"] "d" fsDenyA [1, 0] = .ok "B/d" := by decide

/-- **C4 amended**: `findRoot` skips every failed probe regardless of the
failure reason (non-existence, not-a-directory, or an I/O error such as
permission denied): it fulfils exactly when some probe in the completion
order fulfils, and only when *all* probes fail does it reject — with the
aggregate of all the probe rejection reasons in completion order, not
with any single I/O error propagated unchanged. -/
theorem findRoot_error_policy (roots : List String) (dir : String) (fs : FSModel)
    (order : List Nat) :
    (promiseFulfilled (findRoot roots dir fs order) = true ↔
      ∃ j ∈ order, ∃ q, (roots.map (probeRoot fs dir)).get? j = some (.ok q)) ∧
    ((∀ j ∈ order,
        promiseFulfilled (((roots.map (probeRoot fs dir)).get? j).getD
          (.error .lookingForDirs)) = false) →
      findRoot roots dir fs order = .error (order.filterMap (fun j =>
        match (roots.map (probeRoot fs dir)).get? j with
        | some (.error e) => some e
        | _ => none))) := by
  constructor
  · rw [findRoot]
    exact promiseSomeLoop_fulfilled_iff _ order []
  · intro hfail
    rw [findRoot]
    exact (promiseSomeLoop_all_fail _ order [] hfail).trans (by simp)

/-- Witness for the amended C4: both probes are permission-denied, and
`findRoot` rejects with the aggregate of both `eacces` errors. -/
theorem findRoot_error_policy_witness :
    (∀ j ∈ [0, 1],
      promiseFulfilled (((["A", "B"].map (probeRoot fsDenyAll "d")).get? j).getD
        (.error .lookingForDirs)) = false) ∧
    findRoot ["A", "B"] "d" fsDenyAll [0, 1] = .error [.io .eacces, .io .eacces] :=
  ⟨by decide,
    (findRoot_error_policy ["A", "B"] "d" fsDenyAll [0, 1]).2 (by decide)⟩

end Packager

namespace Packager

/-- Fixture: one project root `r`; `r/assets` holds `icon.png` (mtime 5),
`icon@2x.png` (mtime 7) and `b.jpg` (mtime 5). -/
def fsProj : FSModel :=
  { lstat := fun p =>
      if p = "r/assets" then .ok { isDirectory := true, mtimeMs := 0 }
      else if p = "r/assets/icon.png" then .ok { isDirectory := false, mtimeMs := 5 }
      else if p = "r/assets/icon@2x.png" then .ok { isDirectory := false, mtimeMs := 7 }
      else if p = "r/assets/b.jpg" then .ok { isDirectory := false, mtimeMs := 5 }
      else .error .enoent,
    readDir := fun p =>
      if p = "r/assets" then .ok ["icon.png", "icon@2x.png", "b.jpg"]
      else .error .enoent,
    readFile := fun p =>
      if p = "r/assets/icon.png" then .ok "PNG1"
      else if p = "r/assets/icon@2x.png" then .ok "PNG2"
      else if p = "r/assets/b.jpg" then .ok "JPG"
      else .error .enoent }

/-- Fixture server over the single root `r`. -/
def server1 : AssetServer := { _roots := ["r"], _assetExts := ["png"] }

/-- **C7**: when the directory is located and listed but the parsed asset
name has no record in the built map, resolution fails with the
asset-not-found error (`throw new Error('Asset not found')`), which is a
different error from the root-locator's aggregate not-found rejection. -/
theorem missing_name_distinct_error (server : AssetServer) (fs : FSModel)
    (order : List Nat) (assetPath dir : String) (files : List String)
    (hroot : findRoot server._roots (pathDirname assetPath) fs order = .ok dir)
    (hls : fs.readDir dir = .ok files)
    (hmiss : buildAssetMap dir files
      (getAssetDataFromName (pathBasename assetPath)).assetName = none) :
    server._getAssetRecord fs order assetPath = .error .assetNotFound ∧
    server.get fs order assetPath = .error .assetNotFound ∧
    ∀ reasons, ResolveErr.assetNotFound ≠ ResolveErr.rootNotFound reasons := by
  have hrec : server._getAssetRecord fs order assetPath = .error .assetNotFound := by
    rw [AssetServer._getAssetRecord]
    simp only [hroot, hls, hmiss]
  refine ⟨hrec, ?_, ?_⟩
  · rw [AssetServer.get]
    simp only [hrec]
  · intro reasons h
    cases h

/-- Witness for C7: `nope.png` is absent from the listed directory. -/
theorem missing_name_distinct_error_witness :
    (findRoot server1._roots (pathDirname "assets/nope.png") fsProj [0] = .ok "r/assets" ∧
      fsProj.readDir "r/assets" = .ok ["icon.png", "icon@2x.png", "b.jpg"] ∧
      buildAssetMap "r/assets" ["icon.png", "icon@2x.png", "b.jpg"]
        (getAssetDataFromName (pathBasename "assets/nope.png")).assetName = none) ∧
    server1._getAssetRecord fsProj [0] "assets/nope.png" = .error .assetNotFound :=
  ⟨⟨by decide, by decide, by decide⟩,
    (missing_name_distinct_error server1 fsProj [0] "assets/nope.png" "r/assets"
      ["icon.png", "icon@2x.png", "b.jpg"] (by decide) (by decide) (by decide)).1⟩

/-- C8 counterexample: for the asset `b.jpg` (canonical extension `jpg`)
the metadata's `type` field is the hard-coded `"png"`, not the extension
parsed from the asset path. -/
theorem getAssetData_type_counterexample :
    server1.getAssetData String.mk fsProj [0] "assets/b.jpg" =
      .ok { name := "b", type := "png", scales := [1], hash := "5" } ∧
    (getAssetDataFromName "assets/b.jpg").type = "jpg" ∧
    ("png" : String) ≠ "jpg" := by decide

/-- **C8 amended**: for every successfully resolved asset, `getAssetData`
returns the parsed name, the record's scales and the digest of the
variants' modification-time strings — but the `type` field is always the
constant `"png"`, regardless of the asset's extension. -/
theorem getAssetData_metadata_shape (server : AssetServer) (md5 : List Char → String)
    (fs : FSModel) (order : List Nat) (assetPath : String) (md : AssetMetadata)
    (h : server.getAssetData md5 fs order assetPath = .ok md) :
    md.type = "png" ∧
    md.name = (getAssetDataFromName assetPath).name ∧
    ∃ record, server._getAssetRecord fs order assetPath = .ok record ∧
      md.scales = record.scales ∧
      ∃ stats, lstatAll fs record.files = .ok stats ∧
        md.hash = md5 (hashInput (stats.map (fun st => st.mtimeMs))) := by
  rw [AssetServer.getAssetData] at h
  cases hrec : server._getAssetRecord fs order assetPath with
  | error e =>
    rw [hrec] at h
    cases h
  | ok record =>
    rw [hrec] at h
    dsimp only at h
    cases hstats : lstatAll fs record.files with
    | error e =>
      rw [hstats] at h
      cases h
    | ok stats =>
      rw [hstats] at h
      injection h with h
      subst h
      exact ⟨rfl, rfl, record, rfl, rfl, stats, hstats, rfl⟩

/-- Witness for the amended C8 on `icon.png`. -/
theorem getAssetData_metadata_shape_witness :
    server1.getAssetData String.mk fsProj [0] "assets/icon.png" =
      .ok { name := "icon", type := "png", scales := [1, 2], hash := "57" } ∧
    (AssetMetadata.mk "icon" "png" [1, 2] "57").type = "png" :=
  ⟨by decide,
    (getAssetData_metadata_shape server1 String.mk fsProj [0] "assets/icon.png"
      (AssetMetadata.mk "icon" "png" [1, 2] "57") (by decide)).1⟩

/-- **C10**: the stored recognized-extensions configuration is never
consulted: two servers with the same roots but different `assetExts`
produce identical results for `get` and `getAssetData` on every input
(no extension-based filtering happens anywhere in resolution). -/
theorem assetExts_not_consulted (s₁ s₂ : AssetServer) (h : s₁._roots = s₂._roots)
    (md5 : List Char → String) (fs : FSModel) (order : List Nat) (assetPath : String) :
    s₁.get fs order assetPath = s₂.get fs order assetPath ∧
    s₁.getAssetData md5 fs order assetPath = s₂.getAssetData md5 fs order assetPath := by
  cases s₁ with
  | mk r₁ e₁ =>
    cases s₂ with
    | mk r₂ e₂ =>
      cases h
      exact ⟨rfl, rfl⟩

/-- Witness for C10: same root, different extension lists, same results. -/
theorem assetExts_not_consulted_witness :
    (AssetServer.mk ["r"] ["png"])._roots = (AssetServer.mk ["r"] ["png", "jpg"])._roots ∧
    (AssetServer.mk ["r"] ["png"]).get fsProj [0] "assets/icon.png" =
      (AssetServer.mk ["r"] ["png", "jpg"]).get fsProj [0] "assets/icon.png" :=
  ⟨rfl,
    (assetExts_not_consulted (AssetServer.mk ["r"] ["png"])
      (AssetServer.mk ["r"] ["png", "jpg"]) rfl String.mk fsProj [0] "assets/icon.png").1⟩

end Packager

namespace Packager

/-! ### The decimal timestamp strings and their injectivity -/

lemma digitChar_toNat : ∀ d, d < 10 → (digitChar d).toNat = 48 + d := by decide

lemma digitChar_ne_dash : ∀ d, d < 10 → digitChar d ≠ '-' := by decide

lemma digitsToNat_append_singleton (l : List Char) (c : Char) :
    digitsToNat (l ++ [c]) = 10 * digitsToNat l + (c.toNat - 48) := by
  rw [digitsToNat, List.foldl_append]
  rfl

lemma natCharsAux_val : ∀ fuel n, n ≤ fuel → digitsToNat (natCharsAux fuel n) = n := by
  intro fuel
  induction fuel with
  | zero =>
    intro n hn
    have h0 : n = 0 := by omega
    subst h0
    rfl
  | succ fuel ih =>
    intro n hn
    cases n with
    | zero => rfl
    | succ m =>
      rw [natCharsAux, digitsToNat_append_singleton]
      have hdiv : (m + 1) / 10 ≤ fuel := by
        have := Nat.div_lt_self (Nat.succ_pos m) (by norm_num : 1 < 10)
        omega
      rw [ih _ hdiv]
      rw [digitChar_toNat _ (Nat.mod_lt _ (by norm_num))]
      omega

lemma digitsToNat_natChars (n : Nat) : digitsToNat (natChars n) = n := by
  rw [natChars]
  by_cases h : n = 0
  · rw [if_pos h, h]
    rfl
  · rw [if_neg h]
    exact natCharsAux_val n n le_rfl

lemma natChars_injective : Function.Injective natChars :=
  Function.LeftInverse.injective digitsToNat_natChars

lemma natChars_ne_nil (n : Nat) : natChars n ≠ [] := by
  rw [natChars]
  by_cases h : n = 0
  · rw [if_pos h]
    simp
  · rw [if_neg h]
    cases n with
    | zero => exact absurd rfl h
    | succ m =>
      rw [natCharsAux]
      simp

lemma mem_natCharsAux_digit :
    ∀ fuel n c, c ∈ natCharsAux fuel n → ∃ d, d < 10 ∧ c = digitChar d := by
  intro fuel
  induction fuel with
  | zero =>
    intro n c hc
    simp [natCharsAux] at hc
  | succ fuel ih =>
    intro n c hc
    cases n with
    | zero => simp [natCharsAux] at hc
    | succ m =>
      rw [natCharsAux] at hc
      rcases List.mem_append.mp hc with h | h
      · exact ih _ c h
      · rw [List.mem_singleton.mp h]
        exact ⟨(m + 1) % 10, Nat.mod_lt _ (by norm_num), rfl⟩

lemma dash_not_mem_natChars (n : Nat) : '-' ∉ natChars n := by
  rw [natChars]
  by_cases h : n = 0
  · rw [if_pos h]
    decide
  · rw [if_neg h]
    intro hc
    rcases mem_natCharsAux_digit n n '-' hc with ⟨d, hd, hdc⟩
    exact digitChar_ne_dash d hd hdc.symm

lemma intChars_injective : Function.Injective intChars := by
  intro a b hab
  cases a with
  | ofNat n =>
    cases b with
    | ofNat m =>
      have h1 : natChars n = natChars m := hab
      rw [natChars_injective h1]
    | negSucc m =>
      exfalso
      have h1 : natChars n = '-' :: natChars (m + 1) := hab
      exact dash_not_mem_natChars n (h1 ▸ List.mem_cons_self '-' (natChars (m + 1)))
  | negSucc n =>
    cases b with
    | ofNat m =>
      exfalso
      have h1 : '-' :: natChars (n + 1) = natChars m := hab
      exact dash_not_mem_natChars m (h1 ▸ List.mem_cons_self '-' (natChars (n + 1)))
    | negSucc m =>
      have h1 : '-' :: natChars (n + 1) = '-' :: natChars (m + 1) := hab
      injection h1 with _ h2
      have h3 := natChars_injective h2
      have h4 : n = m := by omega
      rw [h4]

lemma intChars_ne_nil (m : ℤ) : intChars m ≠ [] := by
  cases m with
  | ofNat n => exact natChars_ne_nil n
  | negSucc n => simp [intChars]

end Packager

namespace Packager

/-! ### Sensitivity of the concatenated digest input -/

lemma hashInput_length (ms : List ℤ) :
    (hashInput ms).length = (ms.map (fun m => (intChars m).length)).sum := by
  rw [hashInput, List.length_flatten, List.map_map]
  rfl

lemma sum_map_lt_of_changeOne (L₁ L₂ : String → Nat) (f : String) (hlt : L₁ f < L₂ f) :
    ∀ l : List String, f ∈ l → (∀ g ∈ l, g ≠ f → L₁ g = L₂ g) →
      (l.map L₁).sum < (l.map L₂).sum := by
  intro l
  induction l with
  | nil => intro h; cases h
  | cons h t ih =>
    intro hmem hagree
    rw [List.map_cons, List.map_cons, List.sum_cons, List.sum_cons]
    have ht : ∀ g ∈ t, g ≠ f → L₁ g = L₂ g :=
      fun g hg => hagree g (List.mem_cons_of_mem h hg)
    by_cases hf : h = f
    · subst hf
      by_cases hht : h ∈ t
      · exact Nat.add_lt_add hlt (ih hht ht)
      · have hteq : t.map L₁ = t.map L₂ :=
          List.map_congr_left (fun g hg => ht g hg (fun hgf => hht (hgf ▸ hg)))
        rw [hteq]
        exact Nat.add_lt_add_right hlt _
    · have hh : L₁ h = L₂ h := hagree h (List.mem_cons_self h t) hf
      rw [hh]
      have hft : f ∈ t := by
        rcases List.mem_cons.mp hmem with h' | h'
        · exact absurd h'.symm hf
        · exact h'
      exact Nat.add_lt_add_left (ih hft ht) _

lemma flatten_changeOne_ne_aux (s₁ s₂ : String → List Char) (f : String)
    (hne : s₁ f ≠ s₂ f) (hlen : (s₁ f).length = (s₂ f).length) :
    ∀ l : List String, f ∈ l → (∀ g ∈ l, g ≠ f → s₁ g = s₂ g) →
      (l.map s₁).flatten ≠ (l.map s₂).flatten := by
  intro l
  induction l with
  | nil => intro h; cases h
  | cons h t ih =>
    intro hmem hagree hflat
    rw [List.map_cons, List.map_cons, List.flatten_cons, List.flatten_cons] at hflat
    by_cases hf : h = f
    · subst hf
      rcases List.append_inj hflat hlen with ⟨h1, _⟩
      exact hne h1
    · have hh : s₁ h = s₂ h := hagree h (List.mem_cons_self h t) hf
      rw [hh] at hflat
      have htail := List.append_cancel_left hflat
      have hft : f ∈ t := by
        rcases List.mem_cons.mp hmem with h' | h'
        · exact absurd h'.symm hf
        · exact h'
      exact ih hft (fun g hg => hagree g (List.mem_cons_of_mem h hg)) htail

lemma flatten_changeOne_ne (l : List String) (s₁ s₂ : String → List Char) (f : String)
    (hmem : f ∈ l) (hne : s₁ f ≠ s₂ f) (hagree : ∀ g ∈ l, g ≠ f → s₁ g = s₂ g) :
    (l.map s₁).flatten ≠ (l.map s₂).flatten := by
  by_cases hlen : (s₁ f).length = (s₂ f).length
  · exact flatten_changeOne_ne_aux s₁ s₂ f hne hlen l hmem hagree
  · intro hflat
    have hlensum := congrArg List.length hflat
    rw [List.length_flatten, List.length_flatten, List.map_map, List.map_map] at hlensum
    rcases Nat.lt_or_ge (s₁ f).length (s₂ f).length with hlt | hge
    · have := sum_map_lt_of_changeOne (List.length ∘ s₁) (List.length ∘ s₂) f hlt
        l hmem (fun g hg hgf => congrArg List.length (hagree g hg hgf))
      omega
    · have hlt2 : (s₂ f).length < (s₁ f).length := by omega
      have := sum_map_lt_of_changeOne (List.length ∘ s₂) (List.length ∘ s₁) f hlt2
        l hmem (fun g hg hgf => (congrArg List.length (hagree g hg hgf)).symm)
      omega

lemma flatten_insert_ne (l₁ l₂ : List String) (f : String) (s : String → List Char)
    (hf : s f ≠ []) :
    ((l₁ ++ f :: l₂).map s).flatten ≠ ((l₁ ++ l₂).map s).flatten := by
  intro hflat
  have h := congrArg List.length hflat
  rw [List.length_flatten, List.length_flatten, List.map_map, List.map_map,
    List.map_append, List.map_append, List.sum_append, List.sum_append,
    List.map_cons, List.sum_cons] at h
  simp only [Function.comp] at h
  have hpos : 0 < (s f).length := List.length_pos.mpr hf
  omega

end Packager

namespace Packager

/-- C6 counterexample: the digest input concatenates timestamp strings
with no separator, so changing *several* modification times at once can
leave the fingerprint unchanged: mtimes `(1, 23)` and `(12, 3)` both feed
`"123"` to MD5 even though both variants' mtimes changed — the claimed
"changes if at least one timestamp changes" equivalence fails. -/
theorem fingerprint_collision_counterexample :
    (fun p => if p = "d/a.png" then (1 : ℤ) else 23) "d/a.png" ≠
      (fun p => if p = "d/a.png" then (12 : ℤ) else 3) "d/a.png" ∧
    (fun p => if p = "d/a.png" then (1 : ℤ) else 23) "d/b.png" ≠
      (fun p => if p = "d/a.png" then (12 : ℤ) else 3) "d/b.png" ∧
    fingerprint String.mk (fun p => if p = "d/a.png" then (1 : ℤ) else 23)
        ["d/a.png", "d/b.png"] =
      fingerprint String.mk (fun p => if p = "d/a.png" then (12 : ℤ) else 3)
        ["d/a.png", "d/b.png"] := by decide

/-- **C6 amended**: with the digest modelled injective, the fingerprint
is unchanged when no variant's modification time changes; changing
exactly *one* variant's modification time changes it; and adding or
removing a variant changes it. (The unrestricted "changes whenever at
least one mtime changes" fails — see the separator-free concatenation
collision.) -/
theorem fingerprint_sensitivity (md5 : List Char → String)
    (hinj : Function.Injective md5) :
    (∀ (files : List String) (m₁ m₂ : String → ℤ) (f : String),
      f ∈ files → m₁ f ≠ m₂ f → (∀ g ∈ files, g ≠ f → m₁ g = m₂ g) →
      fingerprint md5 m₁ files ≠ fingerprint md5 m₂ files) ∧
    (∀ (l₁ l₂ : List String) (f : String) (m : String → ℤ),
      fingerprint md5 m (l₁ ++ f :: l₂) ≠ fingerprint md5 m (l₁ ++ l₂)) ∧
    (∀ (files : List String) (m₁ m₂ : String → ℤ),
      (∀ g ∈ files, m₁ g = m₂ g) →
      fingerprint md5 m₁ files = fingerprint md5 m₂ files) := by
  refine ⟨?_, ?_, ?_⟩
  · intro files m₁ m₂ f hmem hne hagree hfp
    have h1 : hashInput (files.map m₁) = hashInput (files.map m₂) := hinj hfp
    rw [hashInput, hashInput, List.map_map, List.map_map] at h1
    exact flatten_changeOne_ne files (intChars ∘ m₁) (intChars ∘ m₂) f hmem
      (fun h => hne (intChars_injective h))
      (fun g hg hgf => congrArg intChars (hagree g hg hgf)) h1
  · intro l₁ l₂ f m hfp
    have h1 : hashInput ((l₁ ++ f :: l₂).map m) = hashInput ((l₁ ++ l₂).map m) := hinj hfp
    rw [hashInput, hashInput, List.map_map, List.map_map] at h1
    exact flatten_insert_ne l₁ l₂ f (intChars ∘ m) (intChars_ne_nil (m f)) h1
  · intro files m₁ m₂ hagree
    rw [fingerprint, fingerprint]
    have hm : files.map m₁ = files.map m₂ := List.map_congr_left hagree
    rw [hm]

/-- Witness for the amended C6: one variant, two different timestamps. -/
theorem fingerprint_sensitivity_witness :
    Function.Injective String.mk ∧
    fingerprint String.mk (fun _ => (5 : ℤ)) ["x"] ≠
      fingerprint String.mk (fun _ => (6 : ℤ)) ["x"] := by
  have hinj : Function.Injective String.mk := fun a b h => congrArg String.data h
  exact ⟨hinj,
    (fingerprint_sensitivity String.mk hinj).1 ["x"] (fun _ => 5) (fun _ => 6) "x"
      (by decide) (by decide) (by decide)⟩

end Packager

namespace Packager

/-! ### Listing-order invariance of the built record (no resolution ties) -/

lemma assetRecord_ext (a b : AssetRecord) (h1 : a.scales = b.scales)
    (h2 : a.files = b.files) : a = b := by
  cases a
  cases b
  cases h1
  cases h2
  rfl

lemma entriesFor_perm (dir name : String) {files₁ files₂ : List String}
    (h : files₁.Perm files₂) :
    (entriesFor dir name files₁).Perm (entriesFor dir name files₂) :=
  (h.filter _).map _

lemma buildAssetMap_perm_eq (dir name : String) (files₁ files₂ : List String)
    (hperm : files₁.Perm files₂)
    (hnodup : ((entriesFor dir name files₁).map Prod.fst).Nodup) :
    buildAssetMap dir files₁ name = buildAssetMap dir files₂ name := by
  rw [buildAssetMap_spec, buildAssetMap_spec]
  have hep := entriesFor_perm dir name hperm
  by_cases h1 : entriesFor dir name files₁ = []
  · rw [if_pos h1, if_pos (by rw [h1] at hep; exact hep.symm.eq_nil)]
  · rw [if_neg h1, if_neg (fun h2 => h1 (by rw [h2] at hep; exact hep.eq_nil))]
    obtain ⟨hlen1, hsort1, hperm1, _⟩ :=
      buildRecord_invariant (entriesFor dir name files₁) emptyRecord rfl List.sorted_nil
    obtain ⟨hlen2, hsort2, hperm2, _⟩ :=
      buildRecord_invariant (entriesFor dir name files₂) emptyRecord rfl List.sorted_nil
    have hz : ((buildRecord emptyRecord (entriesFor dir name files₁)).scales.zip
          (buildRecord emptyRecord (entriesFor dir name files₁)).files).Perm
        ((buildRecord emptyRecord (entriesFor dir name files₂)).scales.zip
          (buildRecord emptyRecord (entriesFor dir name files₂)).files) :=
      hperm1.trans (hep.trans hperm2.symm)
    have hnodup1 : (((buildRecord emptyRecord (entriesFor dir name files₁)).scales.zip
        (buildRecord emptyRecord (entriesFor dir name files₁)).files).map Prod.fst).Nodup :=
      ((hperm1.map Prod.fst).nodup_iff).mpr hnodup
    have hnodup2 : (((buildRecord emptyRecord (entriesFor dir name files₂)).scales.zip
        (buildRecord emptyRecord (entriesFor dir name files₂)).files).map Prod.fst).Nodup :=
      ((hz.map Prod.fst).nodup_iff).mp hnodup1
    have hsz1 : (((buildRecord emptyRecord (entriesFor dir name files₁)).scales.zip
        (buildRecord emptyRecord (entriesFor dir name files₁)).files).map Prod.fst).Sorted
        (· ≤ ·) := by
      rw [List.map_fst_zip _ _ (le_of_eq hlen1)]
      exact hsort1
    have hsz2 : (((buildRecord emptyRecord (entriesFor dir name files₂)).scales.zip
        (buildRecord emptyRecord (entriesFor dir name files₂)).files).map Prod.fst).Sorted
        (· ≤ ·) := by
      rw [List.map_fst_zip _ _ (le_of_eq hlen2)]
      exact hsort2
    have hpl1 : ((buildRecord emptyRecord (entriesFor dir name files₁)).scales.zip
        (buildRecord emptyRecord (entriesFor dir name files₁)).files).Pairwise
        (fun a b => a.1 < b.1) :=
      ((List.pairwise_map.mp hsz1).and (List.pairwise_map.mp hnodup1)).imp
        (fun h => lt_of_le_of_ne h.1 h.2)
    have hpl2 : ((buildRecord emptyRecord (entriesFor dir name files₂)).scales.zip
        (buildRecord emptyRecord (entriesFor dir name files₂)).files).Pairwise
        (fun a b => a.1 < b.1) :=
      ((List.pairwise_map.mp hsz2).and (List.pairwise_map.mp hnodup2)).imp
        (fun h => lt_of_le_of_ne h.1 h.2)
    haveI : IsAntisymm (ℚ × String) (fun a b => a.1 < b.1) :=
      ⟨fun a b h1 h2 => absurd h2 (not_lt.mpr (le_of_lt h1))⟩
    have hzeq := List.eq_of_perm_of_sorted hz hpl1 hpl2
    congr 1
    refine assetRecord_ext _ _ ?_ ?_
    · rw [← List.map_fst_zip (buildRecord emptyRecord (entriesFor dir name files₁)).scales
        (buildRecord emptyRecord (entriesFor dir name files₁)).files (le_of_eq hlen1),
        ← List.map_fst_zip (buildRecord emptyRecord (entriesFor dir name files₂)).scales
        (buildRecord emptyRecord (entriesFor dir name files₂)).files (le_of_eq hlen2), hzeq]
    · rw [← List.map_snd_zip (buildRecord emptyRecord (entriesFor dir name files₁)).scales
        (buildRecord emptyRecord (entriesFor dir name files₁)).files (ge_of_eq hlen1),
        ← List.map_snd_zip (buildRecord emptyRecord (entriesFor dir name files₂)).scales
        (buildRecord emptyRecord (entriesFor dir name files₂)).files (ge_of_eq hlen2), hzeq]

lemma lstatAll_congr {fs₁ fs₂ : FSModel} (hl : fs₁.lstat = fs₂.lstat) :
    ∀ files, lstatAll fs₁ files = lstatAll fs₂ files := by
  intro files
  induction files with
  | nil => rfl
  | cons f t ih => rw [lstatAll, lstatAll, hl, ih]

end Packager

namespace Packager

/-- Fixture: `r/d` holds two variants of asset `a.png` with the *same*
resolution 1 (`a.png` and `a@1x.png`), listed in parse order. -/
def fsTie1 : FSModel :=
  { lstat := fun p =>
      if p = "r/d" then .ok { isDirectory := true, mtimeMs := 0 }
      else if p = "r/d/a.png" then .ok { isDirectory := false, mtimeMs := 1 }
      else if p = "r/d/a@1x.png" then .ok { isDirectory := false, mtimeMs := 2 }
      else .error .enoent,
    readDir := fun p => if p = "r/d" then .ok ["a.png", "a@1x.png"] else .error .enoent,
    readFile := fun _ => .error .enoent }

/-- Same file system as `fsTie1` except the directory listing order. -/
def fsTie2 : FSModel :=
  { lstat := fun p =>
      if p = "r/d" then .ok { isDirectory := true, mtimeMs := 0 }
      else if p = "r/d/a.png" then .ok { isDirectory := false, mtimeMs := 1 }
      else if p = "r/d/a@1x.png" then .ok { isDirectory := false, mtimeMs := 2 }
      else .error .enoent,
    readDir := fun p => if p = "r/d" then .ok ["a@1x.png", "a.png"] else .error .enoent,
    readFile := fun _ => .error .enoent }

/-- Same file system as `fsProj` except the directory listing order. -/
def fsProj2 : FSModel :=
  { lstat := fun p =>
      if p = "r/assets" then .ok { isDirectory := true, mtimeMs := 0 }
      else if p = "r/assets/icon.png" then .ok { isDirectory := false, mtimeMs := 5 }
      else if p = "r/assets/icon@2x.png" then .ok { isDirectory := false, mtimeMs := 7 }
      else if p = "r/assets/b.jpg" then .ok { isDirectory := false, mtimeMs := 5 }
      else .error .enoent,
    readDir := fun p =>
      if p = "r/assets" then .ok ["b.jpg", "icon@2x.png", "icon.png"]
      else .error .enoent,
    readFile := fun p =>
      if p = "r/assets/icon.png" then .ok "PNG1"
      else if p = "r/assets/icon@2x.png" then .ok "PNG2"
      else if p = "r/assets/b.jpg" then .ok "JPG"
      else .error .enoent }

/-- C5 counterexample: two listings of the same files (`a.png`,
`a@1x.png` — both parsing to asset `a.png` at resolution 1) with
identical per-file modification times, differing only in listing order,
produce *different* hashes: tied resolutions keep listing order, so the
timestamps are concatenated in a different order (`"12"` vs `"21"`). -/
theorem getAssetData_listing_order_counterexample :
    fsTie1.lstat = fsTie2.lstat ∧
    (["a.png", "a@1x.png"] : List String).Perm ["a@1x.png", "a.png"] ∧
    (AssetServer.mk ["r"] ["png"]).getAssetData String.mk fsTie1 [0] "d/a.png" =
      .ok { name := "a", type := "png", scales := [1, 1], hash := "12" } ∧
    (AssetServer.mk ["r"] ["png"]).getAssetData String.mk fsTie2 [0] "d/a.png" =
      .ok { name := "a", type := "png", scales := [1, 1], hash := "21" } ∧
    ("12" : String) ≠ "21" :=
  ⟨rfl, List.Perm.swap "a@1x.png" "a.png" [], by decide, by decide, by decide⟩

/-- **C5 amended**: `getAssetData` is a deterministic function of the
file set and the per-file stats — independent of directory listing
order — *provided* no two variant files of the requested asset share a
resolution; with tied resolutions the record keeps listing order among
the tied files and the hash can differ. -/
theorem getAssetData_listing_order_deterministic (server : AssetServer)
    (md5 : List Char → String) (fs₁ fs₂ : FSModel) (order : List Nat)
    (assetPath dir : String) (files₁ files₂ : List String)
    (hl : fs₁.lstat = fs₂.lstat)
    (hroot : findRoot server._roots (pathDirname assetPath) fs₁ order = .ok dir)
    (hd₁ : fs₁.readDir dir = .ok files₁)
    (hd₂ : fs₂.readDir dir = .ok files₂)
    (hperm : files₁.Perm files₂)
    (hnodup : ((entriesFor dir (getAssetDataFromName (pathBasename assetPath)).assetName
      files₁).map Prod.fst).Nodup) :
    server.getAssetData md5 fs₁ order assetPath =
      server.getAssetData md5 fs₂ order assetPath := by
  have hprobe : ∀ r, probeRoot fs₂ (pathDirname assetPath) r =
      probeRoot fs₁ (pathDirname assetPath) r := by
    intro r
    rw [probeRoot, probeRoot, hl]
  have hroot2 : findRoot server._roots (pathDirname assetPath) fs₂ order = .ok dir := by
    rw [findRoot, List.map_congr_left (fun r _ => hprobe r)]
    rw [findRoot] at hroot
    exact hroot
  have hmapeq := buildAssetMap_perm_eq dir
    (getAssetDataFromName (pathBasename assetPath)).assetName files₁ files₂ hperm hnodup
  have hrec : server._getAssetRecord fs₁ order assetPath =
      server._getAssetRecord fs₂ order assetPath := by
    rw [AssetServer._getAssetRecord, AssetServer._getAssetRecord, hroot, hroot2]
    dsimp only
    rw [hd₁, hd₂]
    dsimp only
    rw [hmapeq]
  rw [AssetServer.getAssetData, AssetServer.getAssetData, ← hrec]
  cases hr : server._getAssetRecord fs₁ order assetPath with
  | error e => rfl
  | ok record =>
    dsimp only
    rw [lstatAll_congr hl record.files]

/-- Witness for the amended C5: distinct resolutions (`icon.png`,
`icon@2x.png`, `b.jpg`), two listing orders, identical metadata. -/
theorem getAssetData_listing_order_deterministic_witness :
    (fsProj.lstat = fsProj2.lstat ∧
      (["icon.png", "icon@2x.png", "b.jpg"] : List String).Perm
        ["b.jpg", "icon@2x.png", "icon.png"] ∧
      ((entriesFor "r/assets"
        (getAssetDataFromName (pathBasename "assets/icon.png")).assetName
        ["icon.png", "icon@2x.png", "b.jpg"]).map Prod.fst).Nodup) ∧
    server1.getAssetData String.mk fsProj [0] "assets/icon.png" =
      server1.getAssetData String.mk fsProj2 [0] "assets/icon.png" :=
  ⟨⟨rfl, by decide, by decide⟩,
    getAssetData_listing_order_deterministic server1 String.mk fsProj fsProj2 [0]
      "assets/icon.png" "r/assets" ["icon.png", "icon@2x.png", "b.jpg"]
      ["b.jpg", "icon@2x.png", "icon.png"] rfl (by decide) (by decide) (by decide)
      (by decide) (by decide)⟩

end Packager
